import Mathlib

/-!
Shallow embedding of the plookup lookup-argument prover
(`src/lookup.rs`, `LookUp<T: LookUpTable>`), together with models of the
collaborator modules it uses (`MultiSet`, the `LookUpTable` capability, the
`Proof` bundle, the Fiat–Shamir transcript and the opaque commitment /
polynomial operations).  Only `lookup.rs` is available as source; the
collaborator modules are modelled from the specification, as flagged in the
doc comment of each such definition.

The file is organised as: definitions, then general lemmas about them,
then one theorem (plus witness / counterexample where applicable) per
specification claim.
-/

namespace Plookup

/-- Rust `usize::next_power_of_two` rounding loop: starting from `acc`, double
until `n ≤ acc`.  `fuel` bounds the recursion; `fuel = n` is always enough
because `acc` doubles each step. -/
def npow2go (n : Nat) : Nat → Nat → Nat
  | 0, acc => acc
  | fuel + 1, acc => if n ≤ acc then acc else npow2go n fuel (2 * acc)

/-- Rust's `usize::next_power_of_two`: the least power of two `≥ max n 1`. -/
def next_power_of_two (n : Nat) : Nat := npow2go n n 1

/-- Modelled from the spec: `MultiSet` (module `multiset.rs`, not under
`src/`) is "an ordered sequence of field elements where duplicates are
meaningful" — a list. -/
abbrev MultiSet (F : Type) := List F

namespace MultiSet

variable {F : Type}

/-- Modelled from the spec: `push(value)` appends one element. -/
def push (s : MultiSet F) (x : F) : MultiSet F := s ++ [x]

/-- Modelled from the spec: `scale(c)` returns a new multiset with every
element multiplied by the scalar `c` (the `MultiSet * Fr` operator used in
`to_multiset`). -/
def scale [Mul F] (s : MultiSet F) (c : F) : MultiSet F := s.map (· * c)

/-- Modelled from the spec: `add(other)` is the position-wise sum of two
equal-length multisets (the `MultiSet + MultiSet` operator used in
`to_multiset`). -/
def add [Add F] (s t : MultiSet F) : MultiSet F := List.zipWith (· + ·) s t

/-- Modelled from the spec: `sort()` returns a new multiset in canonical
non-decreasing order.  Over a linear order the sorted permutation of a list
is unique, so any correct sort is a faithful model. -/
def sort [LinearOrder F] (s : MultiSet F) : MultiSet F :=
  s.insertionSort (· ≤ ·)

/-- Modelled from the spec: `extend(n, value)` appends `n` copies of
`value`. -/
def extend (s : MultiSet F) (n : Nat) (x : F) : MultiSet F :=
  s ++ List.replicate n x

/-- Modelled from the spec: `last()` returns the multiset's last element.
The spec does not define it on the empty multiset (and §8 asserts the
zero-read case behaves like every other), so the model totalises it with a
default of `0`. -/
def last [Zero F] (s : MultiSet F) : F := s.getLast?.getD 0

/-- Modelled from the spec: `is_subset_of(other)` is true iff every value's
multiplicity in `self` is at most its multiplicity in `other`
("true multiset-inclusion semantics"). -/
def is_subset_of [DecidableEq F] (s t : MultiSet F) : Bool :=
  s.all (fun x => decide (s.count x ≤ t.count x))

end MultiSet

/-- Modelled from the spec: the `LookUpTable` capability
(`lookup_table.rs`, not under `src/`): a point query
`read(key) -> optional value` plus `to_multiset()` giving the table's full
enumerated domain as three parallel multisets, here stored as the field
`rows`. -/
structure LookUpTable (F : Type) where
  read : F × F → Option F
  rows : MultiSet F × MultiSet F × MultiSet F

/-- Structure `LookUp<T>` from `src/lookup.rs`: a table plus the three wire
multisets. -/
structure LookUp (F : Type) where
  table : LookUpTable F
  left_wires : MultiSet F
  right_wires : MultiSet F
  output_wires : MultiSet F

namespace LookUp

variable {F : Type}

/-- Source `LookUp::new` (`src/lookup.rs` lines 22-29). -/
def new (table : LookUpTable F) : LookUp F :=
  { table := table, left_wires := [], right_wires := [], output_wires := [] }

/-- Source `LookUp::read` (`src/lookup.rs` lines 33-46): query the table; on a hit
push key and value onto the three wire multisets and return `true`; on a
miss return `false` without mutation. -/
def read (l : LookUp F) (key : F × F) : Bool × LookUp F :=
  match l.table.read key with
  | none => (false, l)
  | some output =>
    (true,
      { l with
        left_wires := l.left_wires.push key.1
        right_wires := l.right_wires.push key.2
        output_wires := l.output_wires.push output })

/-- A sequence of `read` calls, keeping only the final state. -/
def readAll (l : LookUp F) (keys : List (F × F)) : LookUp F :=
  keys.foldl (fun s k => (s.read k).2) l

/-- Source `LookUp::pad` (`src/lookup.rs` lines 50-68).  Rust `usize` subtraction
panics on underflow (debug builds), which happens in the else branch when
`witness.len()` is already a power of two (`pad_to_power_of_two - 1` with
`pad_to_power_of_two == 0`); the model returns `none` there.  In the first
branch no subtraction can underflow, so plain truncated subtraction is
exact. -/
def pad [Zero F] (witness table : MultiSet F) : Option (MultiSet F × MultiSet F) :=
  if witness.length < table.length then
    let t1 := table.extend (next_power_of_two table.length - table.length) table.last
    let w1 := witness.extend (t1.length - witness.length - 1) witness.last
    some (w1, t1)
  else
    let pad_to_power_of_two := next_power_of_two witness.length - witness.length
    if pad_to_power_of_two = 0 then none
    else
      let w1 := witness.extend (pad_to_power_of_two - 1) table.last
      let t1 := table.extend (w1.length + 1) table.last
      some (w1, t1)

/-- Source `LookUp::to_multiset` (`src/lookup.rs` lines 72-102): merge the wires
and the table rows by the challenge powers `1, c, c²`, sort only the merged
table, then pad. -/
def to_multiset [CommRing F] [LinearOrder F] (l : LookUp F) (challenge : F) :
    Option (MultiSet F × MultiSet F) :=
  let challenge_0 : F := 1
  let challenge_1 : F := challenge
  let challenge_2 : F := challenge * challenge
  let t_left := l.table.rows.1
  let t_right := l.table.rows.2.1
  let t_output := l.table.rows.2.2
  let merged_witness :=
    ((l.left_wires.scale challenge_0).add
      (l.right_wires.scale challenge_1)).add
      (l.output_wires.scale challenge_2)
  let merged_table :=
    ((t_left.scale challenge_0).add
      (t_right.scale challenge_1)).add
      (t_output.scale challenge_2)
  pad merged_witness merged_table.sort

end LookUp

/-- The pointwise random-linear-combination merge, written the way the spec
describes it: `left·1 + right·challenge + output·challenge²`
position-wise. -/
def rlcMerge {F : Type} [CommRing F] (challenge : F)
    (left right output : MultiSet F) : MultiSet F :=
  List.zipWith3 (fun a b c => a * 1 + b * challenge + c * (challenge * challenge))
    left right output

/-- Modelled from the spec: `multiset_equality::compute_h1_h2`
(`multiset_equality.rs`, not under `src/`): concatenate `f` and `t`, sort,
and split into the first `len t` elements and the last `len t` elements,
overlapping by one. -/
def compute_h1_h2 {F : Type} [LinearOrder F] (f t : MultiSet F) :
    MultiSet F × MultiSet F :=
  let merged := MultiSet.sort (f ++ t)
  (merged.take t.length, merged.drop (merged.length - t.length))

/-- Bundle `Proof` (`proof.rs`, field names as in `src/lookup.rs` lines 155-163):
the bundle of four commitments. -/
structure Proof (C : Type) where
  h_1_comm : C
  h_2_comm : C
  z_comm : C
  q_comm : C
deriving DecidableEq

/-- The transcript labels used by `LookUp::prove` (`b"challenge"`,
`b"h_1"`, `b"h_2"`, `b"beta"`, `b"gamma"`). -/
inductive Label
  | challenge
  | h_1
  | h_2
  | beta
  | gamma
deriving DecidableEq

/-- A transcript event: either a challenge was drawn under a label, or a
commitment was absorbed under a label. -/
inductive TEvent (C : Type)
  | challengeEv (label : Label)
  | absorb (label : Label) (c : C)
deriving DecidableEq

/-- Modelled from the spec: the Fiat–Shamir transcript (`transcript.rs`,
not under `src/`): an append-only event history plus a deterministic
challenge-derivation function of everything absorbed so far. -/
structure Transcript (F C : Type) where
  oracle : List (TEvent C) → Label → F
  events : List (TEvent C)

namespace Transcript

variable {F C : Type}

/-- Modelled from the spec: `challenge_scalar(label)` derives a field
element deterministically from the history and records the event. -/
def challenge_scalar (tr : Transcript F C) (label : Label) :
    F × Transcript F C :=
  (tr.oracle tr.events label,
   { tr with events := tr.events ++ [TEvent.challengeEv label] })

/-- Modelled from the spec: `append_commitment(label, commitment)` absorbs
a commitment, affecting all future challenges. -/
def append_commitment (tr : Transcript F C) (label : Label) (c : C) :
    Transcript F C :=
  { tr with events := tr.events ++ [TEvent.absorb label c] }

end Transcript

/-- The opaque collaborators `prove` calls, modelled from the spec as
abstract operations: `kzg10::commit`, `MultiSet::to_polynomial` over a
domain (represented by its requested size), `domain.ifft` composed with
`from_coefficients_vec`, `multiset_equality::compute_accumulator_values`
and `quotient_poly::compute`.  None of the claims depends on their values,
so the theorems quantify over them. -/
structure ProverDeps (F C P PK : Type) where
  commit : PK → P → C
  to_polynomial : Nat → MultiSet F → P
  ifft : Nat → List F → P
  compute_accumulator_values :
    MultiSet F → MultiSet F → MultiSet F → MultiSet F → F → F → List F
  quotient_compute : Nat → P → P → P → P → P → F → F → P × P

/-- Source `LookUp::prove` (`src/lookup.rs` lines 105-164), with the transcript
threaded explicitly and panics (`pad` underflow, the
`assert_eq!(f.len() + 1, t.len())`) modelled as `none`.  Note the source's
own slip is preserved: the returned `Proof` stores `h_1_commit` in **both**
the `h_1_comm` and `h_2_comm` slots (line 158). -/
def LookUp.prove {F C P PK : Type} [CommRing F] [LinearOrder F]
    (l : LookUp F) (deps : ProverDeps F C P PK) (proving_key : PK)
    (transcript : Transcript F C) : Option (Proof C × Transcript F C) :=
  let c := transcript.challenge_scalar Label.challenge
  match l.to_multiset c.1 with
  | none => none
  | some (f, t) =>
    if f.length + 1 = t.length then
      let domain : Nat := f.length
      let f_poly := deps.to_polynomial domain f
      let t_poly := deps.to_polynomial domain t
      let h12 := compute_h1_h2 f t
      let h_1_poly := deps.to_polynomial domain h12.1
      let h_2_poly := deps.to_polynomial domain h12.2
      let h_1_commit := deps.commit proving_key h_1_poly
      let h_2_commit := deps.commit proving_key h_2_poly
      let tr2 := (c.2.append_commitment Label.h_1 h_1_commit).append_commitment
        Label.h_2 h_2_commit
      let b := tr2.challenge_scalar Label.beta
      let g := b.2.challenge_scalar Label.gamma
      let z_evaluations :=
        deps.compute_accumulator_values f t h12.1 h12.2 b.1 g.1
      let z_poly := deps.ifft domain z_evaluations
      let z_commit := deps.commit proving_key z_poly
      let quotient_poly :=
        (deps.quotient_compute domain z_poly f_poly t_poly h_1_poly h_2_poly
          b.1 g.1).1
      let q_commit := deps.commit proving_key quotient_poly
      some
        ({ h_1_comm := h_1_commit, h_2_comm := h_1_commit,
           z_comm := z_commit, q_comm := q_commit }, g.2)
    else none

/-- The rows of a table as a single list of `(left, right, output)`
triples. -/
def tripleRows {F : Type} (tbl : LookUpTable F) : List (F × F × F) :=
  List.zipWith3 (fun a b c => (a, b, c)) tbl.rows.1 tbl.rows.2.1 tbl.rows.2.2

/-- The spec's `LookupTable` capability invariant: every successful `read`
returns a value whose triple appears among the rows implied by the table's
decomposition. -/
def TableSpec {F : Type} (tbl : LookUpTable F) : Prop :=
  ∀ k v, tbl.read k = some v → (k.1, k.2, v) ∈ tripleRows tbl

/-- Invariant of the three wire multisets relative to a table: they have
equal lengths and every recorded triple is a table row. -/
def WiresOk {F : Type} (tbl : LookUpTable F) (l : LookUp F) : Prop :=
  l.left_wires.length = l.right_wires.length ∧
  l.left_wires.length = l.output_wires.length ∧
  ∀ p ∈ List.zipWith3 (fun a b c => (a, b, c))
      l.left_wires l.right_wires l.output_wires, p ∈ tripleRows tbl

/-- A tiny concrete table over `ℤ` used to instantiate the generic
theorems: domain `{(0,0), (1,1), (2,2)}` with rows
`(0,0,0), (1,1,1), (2,2,2)`. -/
def exTable : LookUpTable ℤ where
  read := fun k =>
    if k = (0, 0) then some 0
    else if k = (1, 1) then some 1
    else if k = (2, 2) then some 2
    else none
  rows := ([0, 1, 2], [0, 1, 2], [0, 1, 2])

/-- Trivial concrete instantiation of the opaque prover dependencies:
polynomials and commitments are plain lists of field elements. -/
def exDeps : ProverDeps ℤ (List ℤ) (List ℤ) Unit where
  commit := fun _ p => p
  to_polynomial := fun _ s => s
  ifft := fun _ l => l
  compute_accumulator_values := fun f _ _ _ _ _ => f
  quotient_compute := fun _ z f _ _ _ _ _ => (z, f)

/-- A concrete transcript whose oracle returns `1` for every label. -/
def exTranscript : Transcript ℤ (List ℤ) where
  oracle := fun _ _ => 1
  events := []

/-- The lookup state after one successful read of `(0, 0)` against
`exTable`. -/
def exLookup : LookUp ℤ := LookUp.readAll (LookUp.new exTable) [((0:ℤ), (0:ℤ))]

/-- The proof `exLookup.prove exDeps () exTranscript` produces (note the
duplicated first commitment). -/
def exProof : Proof (List ℤ) :=
  { h_1_comm := [0, 0, 0, 0], h_2_comm := [0, 0, 0, 0],
    z_comm := [0, 0, 0], q_comm := [0, 0, 0] }

/-- The final transcript state of `exLookup.prove exDeps () exTranscript`. -/
def exTranscriptFinal : Transcript ℤ (List ℤ) where
  oracle := fun _ _ => 1
  events := [TEvent.challengeEv Label.challenge,
    TEvent.absorb Label.h_1 [0, 0, 0, 0],
    TEvent.absorb Label.h_2 [0, 3, 6, 6],
    TEvent.challengeEv Label.beta,
    TEvent.challengeEv Label.gamma]

/-! ## General lemmas -/

theorem npow2go_of_le {n : Nat} (fuel acc : Nat) (h : n ≤ acc) :
    npow2go n fuel acc = acc := by
  cases fuel with
  | zero => rfl
  | succ fuel => simp [npow2go, h]

theorem npow2go_ge {n : Nat} (fuel : Nat) :
    ∀ acc, n ≤ 2 ^ fuel * acc → n ≤ npow2go n fuel acc := by
  induction fuel with
  | zero => intro acc h; simpa [npow2go] using h
  | succ fuel ih =>
    intro acc h
    simp only [npow2go]
    by_cases hle : n ≤ acc
    · simp [hle]
    · simp only [hle, if_false]
      apply ih
      calc n ≤ 2 ^ (fuel + 1) * acc := h
        _ = 2 ^ fuel * (2 * acc) := by ring

theorem npow2go_pow {n : Nat} (fuel : Nat) :
    ∀ acc, (∃ j, acc = 2 ^ j) → ∃ k, npow2go n fuel acc = 2 ^ k := by
  induction fuel with
  | zero => intro acc h; simpa [npow2go] using h
  | succ fuel ih =>
    intro acc h
    simp only [npow2go]
    by_cases hle : n ≤ acc
    · simpa [hle] using h
    · simp only [hle, if_false]
      apply ih
      obtain ⟨j, rfl⟩ := h
      exact ⟨j + 1, by ring⟩

theorem npow2go_pow_eq {k : Nat} :
    ∀ fuel j, 2 ^ j ≤ 2 ^ k → 2 ^ k ≤ 2 ^ j * 2 ^ fuel →
      npow2go (2 ^ k) fuel (2 ^ j) = 2 ^ k := by
  intro fuel
  induction fuel with
  | zero =>
    intro j h1 h2
    have : (2 : Nat) ^ k = 2 ^ j := le_antisymm (by simpa using h2) h1
    simp [npow2go, this]
  | succ fuel ih =>
    intro j h1 h2
    simp only [npow2go]
    by_cases hle : (2 : Nat) ^ k ≤ 2 ^ j
    · simp [hle, le_antisymm hle h1]
    · simp only [hle, if_false]
      have hjk : j < k := by
        by_contra hcon
        exact hle (Nat.pow_le_pow_right (by norm_num) (Nat.le_of_not_lt hcon))
      have h1' : (2 : Nat) ^ (j + 1) ≤ 2 ^ k :=
        Nat.pow_le_pow_right (by norm_num) hjk
      have h2' : (2 : Nat) ^ k ≤ 2 ^ (j + 1) * 2 ^ fuel := by
        calc (2 : Nat) ^ k ≤ 2 ^ j * 2 ^ (fuel + 1) := h2
          _ = 2 ^ (j + 1) * 2 ^ fuel := by ring
      have := ih (j + 1) h1' h2'
      simpa [pow_succ, Nat.mul_comm] using this

theorem le_next_power_of_two (n : Nat) : n ≤ next_power_of_two n := by
  apply npow2go_ge
  have := Nat.lt_two_pow n
  omega

theorem next_power_of_two_pow (n : Nat) : ∃ k, next_power_of_two n = 2 ^ k :=
  npow2go_pow n 1 ⟨0, rfl⟩

theorem next_power_of_two_two_pow (k : Nat) :
    next_power_of_two (2 ^ k) = 2 ^ k := by
  have hk : k ≤ 2 ^ k := Nat.le_of_lt (Nat.lt_two_pow k)
  have h1 : (2 : Nat) ^ 0 ≤ 2 ^ k :=
    Nat.pow_le_pow_right (by norm_num) (Nat.zero_le k)
  have h2 : (2 : Nat) ^ k ≤ 2 ^ 0 * 2 ^ (2 ^ k) := by
    simpa using Nat.pow_le_pow_right (by norm_num : 0 < 2) hk
  have h3 := npow2go_pow_eq (2 ^ k) 0 h1 h2
  simpa [next_power_of_two] using h3

theorem next_power_of_two_pos (n : Nat) : 0 < next_power_of_two n := by
  obtain ⟨k, hk⟩ := next_power_of_two_pow n
  rw [hk]
  exact Nat.pos_pow_of_pos k (by norm_num)

theorem MultiSet.last_mem {F : Type} [Zero F] {s : MultiSet F} (h : s ≠ []) :
    s.last ∈ s := by
  unfold MultiSet.last
  rw [List.getLast?_eq_getLast s h]
  exact List.getLast_mem h

theorem MultiSet.mem_sort {F : Type} [LinearOrder F] {s : MultiSet F} {x : F} :
    x ∈ s.sort ↔ x ∈ s :=
  (List.perm_insertionSort (· ≤ ·) s).mem_iff

theorem MultiSet.length_extend {F : Type} {s : MultiSet F} {n : Nat} {x : F} :
    (s.extend n x).length = s.length + n := by
  simp [MultiSet.extend]

/-- Closed form of `pad`: branch on the length comparison, with all the
sequentially-mutated lengths resolved.  In the first branch the table ends
at `next_power_of_two table.len` and the witness one below it, padded with
its own last element; in the else branch the witness is padded with the
*table's* last element up to `next_power_of_two witness.len - 1`, and the
table then grows *by* `next_power_of_two witness.len` further copies of its
last element. -/
theorem LookUp.pad_eq {F : Type} [Zero F] (w t : MultiSet F) :
    LookUp.pad w t =
      if w.length < t.length then
        some (w ++ List.replicate (next_power_of_two t.length - w.length - 1) w.last,
              t ++ List.replicate (next_power_of_two t.length - t.length) t.last)
      else if next_power_of_two w.length = w.length then none
      else
        some (w ++ List.replicate (next_power_of_two w.length - w.length - 1) t.last,
              t ++ List.replicate (next_power_of_two w.length) t.last) := by
  have hw := le_next_power_of_two w.length
  have ht := le_next_power_of_two t.length
  by_cases h : w.length < t.length
  · simp only [LookUp.pad, if_pos h, MultiSet.extend, List.length_append,
      List.length_replicate]
    have h1 : t.length + (next_power_of_two t.length - t.length) =
        next_power_of_two t.length := by omega
    rw [h1]
  · by_cases h0 : next_power_of_two w.length = w.length
    · simp [LookUp.pad, h, h0]
    · have hgt : w.length < next_power_of_two w.length := by omega
      simp only [LookUp.pad, if_neg h, MultiSet.extend, List.length_append,
        List.length_replicate]
      rw [if_neg (show ¬(next_power_of_two w.length - w.length = 0) by omega),
        if_neg h0]
      have h2 : w.length + (next_power_of_two w.length - w.length - 1) + 1 =
          next_power_of_two w.length := by omega
      rw [h2]

theorem scale_add_eq_rlcMerge {F : Type} [CommRing F] (challenge : F)
    (left right output : MultiSet F) :
    ((left.scale 1).add (right.scale challenge)).add
        (output.scale (challenge * challenge)) =
      rlcMerge challenge left right output := by
  induction left generalizing right output with
  | nil =>
    cases right <;> cases output <;>
      simp [MultiSet.scale, MultiSet.add, rlcMerge, List.zipWith3]
  | cons a as ih =>
    cases right with
    | nil =>
      cases output <;>
        simp [MultiSet.scale, MultiSet.add, rlcMerge, List.zipWith3]
    | cons b bs =>
      cases output with
      | nil => simp [MultiSet.scale, MultiSet.add, rlcMerge, List.zipWith3]
      | cons c cs =>
        simpa [MultiSet.scale, MultiSet.add, rlcMerge, List.zipWith3]
          using ih bs cs

/-- Rewriting `to_multiset` in terms of `rlcMerge`: merge wires (unsorted), merge and
sort the table rows, pad. -/
theorem to_multiset_eq {F : Type} [CommRing F] [LinearOrder F]
    (l : LookUp F) (challenge : F) :
    l.to_multiset challenge =
      LookUp.pad
        (rlcMerge challenge l.left_wires l.right_wires l.output_wires)
        (MultiSet.sort
          (rlcMerge challenge l.table.rows.1 l.table.rows.2.1 l.table.rows.2.2)) := by
  unfold LookUp.to_multiset
  simp only [scale_add_eq_rlcMerge]

theorem zipWith3_append_singleton {α β γ δ : Type} (f : α → β → γ → δ) :
    ∀ (as : List α) (bs : List β) (cs : List γ) (a : α) (b : β) (c : γ),
      as.length = bs.length → as.length = cs.length →
      List.zipWith3 f (as ++ [a]) (bs ++ [b]) (cs ++ [c])
        = List.zipWith3 f as bs cs ++ [f a b c] := by
  intro as
  induction as with
  | nil =>
    intro bs cs a b c hb hc
    cases bs with
    | nil =>
      cases cs with
      | nil => simp [List.zipWith3]
      | cons z zs => simp at hc
    | cons y ys => simp at hb
  | cons x xs ih =>
    intro bs cs a b c hb hc
    cases bs with
    | nil => simp at hb
    | cons y ys =>
      cases cs with
      | nil => simp at hc
      | cons z zs =>
        simp only [List.cons_append, List.zipWith3, List.append_eq]
        rw [ih ys zs a b c (by simpa using hb) (by simpa using hc)]

theorem zipWith3_eq_map {α β γ δ : Type} (f : α → β → γ → δ) :
    ∀ (as : List α) (bs : List β) (cs : List γ),
      List.zipWith3 f as bs cs
        = (List.zipWith3 (fun a b c => (a, b, c)) as bs cs).map
            (fun p => f p.1 p.2.1 p.2.2) := by
  intro as
  induction as with
  | nil => intro bs cs; cases bs <;> cases cs <;> simp [List.zipWith3]
  | cons x xs ih =>
    intro bs cs
    cases bs with
    | nil => simp [List.zipWith3]
    | cons y ys =>
      cases cs with
      | nil => simp [List.zipWith3]
      | cons z zs => simp [List.zipWith3, ih ys zs]

theorem zipWith3_length_of_eq {α β γ δ : Type} (f : α → β → γ → δ) :
    ∀ (as : List α) (bs : List β) (cs : List γ),
      as.length = bs.length → as.length = cs.length →
      (List.zipWith3 f as bs cs).length = as.length := by
  intro as
  induction as with
  | nil => intro bs cs _ _; cases bs <;> cases cs <;> simp [List.zipWith3]
  | cons x xs ih =>
    intro bs cs hb hc
    cases bs with
    | nil => simp at hb
    | cons y ys =>
      cases cs with
      | nil => simp at hc
      | cons z zs =>
        simp only [List.zipWith3, List.length_cons]
        rw [ih ys zs (by simpa using hb) (by simpa using hc)]

theorem read_table {F : Type} (l : LookUp F) (key : F × F) :
    ((l.read key).2).table = l.table := by
  unfold LookUp.read
  cases l.table.read key <;> rfl

theorem read_wiresOk {F : Type} {tbl : LookUpTable F} {l : LookUp F}
    (hspec : TableSpec tbl) (htbl : l.table = tbl) (hok : WiresOk tbl l)
    (key : F × F) : WiresOk tbl ((l.read key).2) := by
  obtain ⟨h1, h2, h3⟩ := hok
  cases hread : l.table.read key with
  | none =>
    have hid : (l.read key).2 = l := by simp [LookUp.read, hread]
    rw [hid]
    exact ⟨h1, h2, h3⟩
  | some v =>
    have hl : (l.read key).2.left_wires = l.left_wires ++ [key.1] := by
      simp [LookUp.read, hread, MultiSet.push]
    have hr : (l.read key).2.right_wires = l.right_wires ++ [key.2] := by
      simp [LookUp.read, hread, MultiSet.push]
    have ho : (l.read key).2.output_wires = l.output_wires ++ [v] := by
      simp [LookUp.read, hread, MultiSet.push]
    unfold WiresOk
    rw [hl, hr, ho]
    refine ⟨by simp [h1], by simp [h2], ?_⟩
    intro p hp
    rw [zipWith3_append_singleton _ _ _ _ _ _ _ h1 h2] at hp
    rcases List.mem_append.mp hp with hp | hp
    · exact h3 p hp
    · have hpv : p = (key.1, key.2, v) := by simpa using hp
      rw [hpv]
      exact hspec key v (htbl ▸ hread)

theorem readAll_invariant {F : Type} {tbl : LookUpTable F}
    (hspec : TableSpec tbl) :
    ∀ (keys : List (F × F)) (l : LookUp F), l.table = tbl → WiresOk tbl l →
      (l.readAll keys).table = tbl ∧ WiresOk tbl (l.readAll keys) := by
  intro keys
  induction keys with
  | nil => intro l htbl hok; exact ⟨htbl, hok⟩
  | cons k ks ih =>
    intro l htbl hok
    have hstep : LookUp.readAll l (k :: ks) = LookUp.readAll ((l.read k).2) ks := by
      simp [LookUp.readAll]
    rw [hstep]
    exact ih _ (by rw [read_table]; exact htbl)
      (read_wiresOk hspec htbl hok k)

theorem readAll_left_length {F : Type} {tbl : LookUpTable F} :
    ∀ (keys : List (F × F)) (l : LookUp F), l.table = tbl →
      (∀ k ∈ keys, (tbl.read k).isSome) →
      (l.readAll keys).left_wires.length = l.left_wires.length + keys.length := by
  intro keys
  induction keys with
  | nil => intro l _ _; simp [LookUp.readAll]
  | cons k ks ih =>
    intro l htbl hdom
    obtain ⟨v, hv⟩ := Option.isSome_iff_exists.mp (hdom k (by simp))
    have hstep : LookUp.readAll l (k :: ks) = LookUp.readAll ((l.read k).2) ks := by
      simp [LookUp.readAll]
    rw [hstep, ih _ (by rw [read_table]; exact htbl)
      (fun k' hk' => hdom k' (by simp [hk']))]
    have : ((l.read k).2).left_wires = l.left_wires ++ [k.1] := by
      unfold LookUp.read
      rw [htbl, hv]
      rfl
    rw [this]
    simp
    omega

/-- Extraction lemma for a successful `prove` run: the merged pair it used,
the length assertion it checked, the two leading commitment slots of the
returned `Proof`, and the exact transcript event trace it produced. -/
theorem prove_some_spec {F C P PK : Type} [CommRing F] [LinearOrder F]
    (l : LookUp F) (deps : ProverDeps F C P PK) (pk : PK)
    (tr : Transcript F C) (pf : Proof C) (tr' : Transcript F C)
    (h : l.prove deps pk tr = some (pf, tr')) :
    ∃ f t,
      l.to_multiset (tr.oracle tr.events Label.challenge) = some (f, t) ∧
      f.length + 1 = t.length ∧
      pf.h_1_comm
        = deps.commit pk (deps.to_polynomial f.length (compute_h1_h2 f t).1) ∧
      pf.h_2_comm
        = deps.commit pk (deps.to_polynomial f.length (compute_h1_h2 f t).1) ∧
      tr'.events = tr.events ++
        [TEvent.challengeEv Label.challenge,
         TEvent.absorb Label.h_1
           (deps.commit pk (deps.to_polynomial f.length (compute_h1_h2 f t).1)),
         TEvent.absorb Label.h_2
           (deps.commit pk (deps.to_polynomial f.length (compute_h1_h2 f t).2)),
         TEvent.challengeEv Label.beta,
         TEvent.challengeEv Label.gamma] := by
  unfold LookUp.prove at h
  simp only [Transcript.challenge_scalar, Transcript.append_commitment] at h
  split at h
  · exact absurd h (by simp)
  · rename_i f t hm
    split at h
    · rename_i hlen
      simp only [Option.some.injEq, Prod.mk.injEq] at h
      obtain ⟨hpf, htr⟩ := h
      refine ⟨f, t, hm, hlen, ?_, ?_, ?_⟩
      · rw [← hpf]
      · rw [← hpf]
      · rw [← htr]
        simp [List.append_assoc]
    · exact absurd h (by simp)

/-! ## Claim theorems -/

/-- C3: for every key, `read` returns `false` and leaves the whole state
(in particular all three wire multisets) unchanged when the table has no
value for the key; otherwise it appends `key.left` to `left_wires`,
`key.right` to `right_wires` and the table's returned value to
`output_wires` — each multiset growing by exactly one element — and
returns `true`. -/
theorem read_filtering {F : Type} (l : LookUp F) (key : F × F) :
    (l.table.read key = none → l.read key = (false, l)) ∧
    (∀ v, l.table.read key = some v →
      l.read key =
        (true,
         { l with
            left_wires := l.left_wires ++ [key.1],
            right_wires := l.right_wires ++ [key.2],
            output_wires := l.output_wires ++ [v] })) := by
  constructor
  · intro h
    simp [LookUp.read, h]
  · intro v h
    simp [LookUp.read, h, MultiSet.push]

theorem read_filtering_witness :
    (LookUp.read (LookUp.new exTable) (3, 3) = (false, LookUp.new exTable)) ∧
    (LookUp.read (LookUp.new exTable) (0, 0) =
      (true,
       { LookUp.new exTable with
          left_wires := (LookUp.new exTable).left_wires ++ [(0:ℤ)],
          right_wires := (LookUp.new exTable).right_wires ++ [(0:ℤ)],
          output_wires := (LookUp.new exTable).output_wires ++ [(0:ℤ)] })) :=
  ⟨(read_filtering (LookUp.new exTable) (3, 3)).1 (by decide),
   (read_filtering (LookUp.new exTable) (0, 0)).2 0 (by decide)⟩

/-- C10: `pad` hits an unsigned underflow (a panic) whenever
`witness.len() ≥ table.len()` and `witness.len()` is already a power of
two: the else branch computes `next_power_of_two(witness.len()) -
witness.len() - 1`, the first subtraction yields `0`, and subtracting `1`
from it underflows `usize`. -/
theorem pad_underflow_panics {F : Type} [Zero F] (w t : MultiSet F)
    (hge : t.length ≤ w.length) (hpow : ∃ k, w.length = 2 ^ k) :
    LookUp.pad w t = none := by
  obtain ⟨k, hk⟩ := hpow
  rw [LookUp.pad_eq, if_neg (by omega),
    if_pos (by rw [hk, next_power_of_two_two_pow])]

theorem pad_underflow_panics_witness :
    LookUp.pad ([0, 0] : MultiSet ℤ) [0] = none :=
  pad_underflow_panics [0, 0] [0] (by decide) ⟨1, by decide⟩

/-- C1 (failing case): with 257 merged witness entries against a 256-row
merged table — reachable by 257 successful reads against the 4-bit XOR
table — `pad` returns multisets whose lengths violate
`f.len() + 1 == t.len()`, so the assert in `prove` fires. -/
theorem pad_assert_violation (w t : MultiSet ℤ)
    (hw : w.length = 257) (ht : t.length = 256) :
    ∃ w1 t1, LookUp.pad w t = some (w1, t1) ∧ w1.length + 1 ≠ t1.length := by
  have hnpt : next_power_of_two w.length = 512 := by rw [hw]; decide
  rw [LookUp.pad_eq, if_neg (by omega), if_neg (by rw [hnpt, hw]; omega)]
  refine ⟨_, _, rfl, ?_⟩
  simp only [List.length_append, List.length_replicate]
  rw [hnpt, hw, ht]
  omega

theorem pad_assert_violation_witness :
    ∃ w1 t1,
      LookUp.pad (List.replicate 257 (0:ℤ)) (List.replicate 256 (0:ℤ))
          = some (w1, t1) ∧
        w1.length + 1 ≠ t1.length :=
  pad_assert_violation (List.replicate 257 0) (List.replicate 256 0)
    (by rw [List.length_replicate]) (by rw [List.length_replicate])

/-- C4 (failing case): in the else branch (`witness.len() ≥ table.len()`),
`pad` appends `witness.len() + 1` copies to the table instead of extending
it **to** final length `witness.len() + 1`: for a witness of length 5 and
a table of length 1 the witness ends at length 7 but the table at length 9,
not 8. -/
theorem pad_else_branch_deviates :
    LookUp.pad ([0, 0, 0, 0, 0] : MultiSet ℤ) [0]
        = some (List.replicate 7 0, List.replicate 9 0) ∧
      (List.replicate 9 (0:ℤ)).length ≠ (List.replicate 7 (0:ℤ)).length + 1 := by
  decide

/-- C7 (counterexample): in the else branch the witness is padded with the
**table's** last element, not its own: witness `[0,0,0,0,1]` (last element
`1`) against table `[2]` gets the two appended copies of `2`. -/
theorem pad_value_counterexample :
    LookUp.pad ([0, 0, 0, 0, 1] : MultiSet ℤ) [2]
        = some ([0, 0, 0, 0, 1, 2, 2], [2, 2, 2, 2, 2, 2, 2, 2, 2]) ∧
      ¬([0, 0, 0, 0, 1, 2, 2] : List ℤ)
          = [0, 0, 0, 0, 1] ++
              List.replicate 2 (MultiSet.last ([0, 0, 0, 0, 1] : MultiSet ℤ)) := by
  decide

/-- C7 (amended): padding only appends — every pre-existing element of
both multisets is unchanged and in its original position — and every
appended element is a repeated fixed value: the table is always padded
with the table's last element, while the witness is padded with its own
last element in the `witness.len() < table.len()` branch but with the
**table's** last element in the other branch. -/
theorem pad_only_appends {F : Type} [Zero F] (w t w1 t1 : MultiSet F)
    (h : LookUp.pad w t = some (w1, t1)) :
    ∃ n m,
      w1 = w ++ List.replicate n
          (if w.length < t.length then w.last else t.last) ∧
      t1 = t ++ List.replicate m t.last := by
  rw [LookUp.pad_eq] at h
  by_cases hlt : w.length < t.length
  · rw [if_pos hlt] at h
    simp only [Option.some.injEq, Prod.mk.injEq] at h
    obtain ⟨hw1, ht1⟩ := h
    exact ⟨_, _, by rw [← hw1, if_pos hlt], by rw [← ht1]⟩
  · rw [if_neg hlt] at h
    by_cases h0 : next_power_of_two w.length = w.length
    · rw [if_pos h0] at h
      exact absurd h (by simp)
    · rw [if_neg h0] at h
      simp only [Option.some.injEq, Prod.mk.injEq] at h
      obtain ⟨hw1, ht1⟩ := h
      exact ⟨_, _, by rw [← hw1, if_neg hlt], by rw [← ht1]⟩

theorem pad_only_appends_witness :
    ∃ n m,
      ([0, 0, 0, 0, 1, 2, 2] : List ℤ)
          = [0, 0, 0, 0, 1] ++ List.replicate n
              (if ([0, 0, 0, 0, 1] : List ℤ).length < ([2] : List ℤ).length
                then MultiSet.last ([0, 0, 0, 0, 1] : MultiSet ℤ)
                else MultiSet.last ([2] : MultiSet ℤ)) ∧
        ([2, 2, 2, 2, 2, 2, 2, 2, 2] : List ℤ)
          = [2] ++ List.replicate m (MultiSet.last ([2] : MultiSet ℤ)) :=
  pad_only_appends [0, 0, 0, 0, 1] [2] [0, 0, 0, 0, 1, 2, 2]
    [2, 2, 2, 2, 2, 2, 2, 2, 2] (by decide)

/-- C5: `to_multiset(challenge)` forms the merged witness as
`left·1 + right·challenge + output·challenge²` position-wise, forms the
table's merged multiset the same way from the table's decomposition, sorts
only the merged table (the merged witness stays unsorted), then pads both
and returns the pair. -/
theorem to_multiset_rlc {F : Type} [CommRing F] [LinearOrder F]
    (l : LookUp F) (challenge : F) :
    l.to_multiset challenge =
      LookUp.pad
        (rlcMerge challenge l.left_wires l.right_wires l.output_wires)
        (MultiSet.sort
          (rlcMerge challenge l.table.rows.1 l.table.rows.2.1
            l.table.rows.2.2)) :=
  to_multiset_eq l challenge

/-- C9: `prove` is deterministic — two runs over identical read sequences
against the same table, with the same dependencies, proving key and an
identically seeded transcript, produce identical results. -/
theorem prove_deterministic {F C P PK : Type} [CommRing F] [LinearOrder F]
    (deps : ProverDeps F C P PK) (pk : PK) (tbl : LookUpTable F)
    (tra trb : Transcript F C) (readsa readsb : List (F × F))
    (htr : tra = trb) (hr : readsa = readsb) :
    ((LookUp.new tbl).readAll readsa).prove deps pk tra
      = ((LookUp.new tbl).readAll readsb).prove deps pk trb := by
  rw [htr, hr]

/-- C2 (failing case): in the `Proof` returned by `prove` the second slot
does **not** hold the commitment to `h2`'s polynomial: the source assigns
`h_1_commit` to both `h_1_comm` and `h_2_comm` (`src/lookup.rs` line 158),
so the second slot always duplicates the first, which holds the `h1`
commitment. -/
theorem proof_h2_slot_duplicates_h1 {F C P PK : Type}
    [CommRing F] [LinearOrder F]
    (l : LookUp F) (deps : ProverDeps F C P PK) (pk : PK)
    (tr : Transcript F C) (pf : Proof C) (tr' : Transcript F C)
    (h : l.prove deps pk tr = some (pf, tr')) :
    pf.h_2_comm = pf.h_1_comm ∧
    ∃ f t,
      l.to_multiset (tr.oracle tr.events Label.challenge) = some (f, t) ∧
      pf.h_1_comm
        = deps.commit pk (deps.to_polynomial f.length (compute_h1_h2 f t).1) := by
  obtain ⟨f, t, hm, _, h1c, h2c, _⟩ := prove_some_spec l deps pk tr pf tr' h
  exact ⟨by rw [h1c, h2c], f, t, hm, h1c⟩

theorem proof_h2_slot_duplicates_h1_witness :
    exProof.h_2_comm = exProof.h_1_comm ∧
    ∃ f t,
      exLookup.to_multiset
          (exTranscript.oracle exTranscript.events Label.challenge)
        = some (f, t) ∧
      exProof.h_1_comm
        = exDeps.commit ()
            (exDeps.to_polynomial f.length (compute_h1_h2 f t).1) :=
  proof_h2_slot_duplicates_h1 exLookup exDeps () exTranscript exProof
    exTranscriptFinal (by rfl)

/-- C8: a successful `prove` run performs the transcript operations in
exactly this order: the RLC challenge is drawn first, then the commitment
to `h1`'s polynomial is absorbed, then the commitment to `h2`'s polynomial,
and only after both absorptions are the challenges `beta` and `gamma`
drawn, in that order.  (Each challenge value is the oracle applied to the
full event history at the moment it is drawn, so every absorbed commitment
influences every later challenge.) -/
theorem prove_transcript_order {F C P PK : Type} [CommRing F] [LinearOrder F]
    (l : LookUp F) (deps : ProverDeps F C P PK) (pk : PK)
    (tr : Transcript F C) (pf : Proof C) (tr' : Transcript F C)
    (h : l.prove deps pk tr = some (pf, tr')) :
    ∃ f t,
      l.to_multiset (tr.oracle tr.events Label.challenge) = some (f, t) ∧
      tr'.events = tr.events ++
        [TEvent.challengeEv Label.challenge,
         TEvent.absorb Label.h_1
           (deps.commit pk (deps.to_polynomial f.length (compute_h1_h2 f t).1)),
         TEvent.absorb Label.h_2
           (deps.commit pk (deps.to_polynomial f.length (compute_h1_h2 f t).2)),
         TEvent.challengeEv Label.beta,
         TEvent.challengeEv Label.gamma] := by
  obtain ⟨f, t, hm, _, _, _, htrace⟩ := prove_some_spec l deps pk tr pf tr' h
  exact ⟨f, t, hm, htrace⟩

theorem prove_transcript_order_witness :
    ∃ f t,
      exLookup.to_multiset
          (exTranscript.oracle exTranscript.events Label.challenge)
        = some (f, t) ∧
      exTranscriptFinal.events = exTranscript.events ++
        [TEvent.challengeEv Label.challenge,
         TEvent.absorb Label.h_1
           (exDeps.commit ()
             (exDeps.to_polynomial f.length (compute_h1_h2 f t).1)),
         TEvent.absorb Label.h_2
           (exDeps.commit ()
             (exDeps.to_polynomial f.length (compute_h1_h2 f t).2)),
         TEvent.challengeEv Label.beta,
         TEvent.challengeEv Label.gamma] :=
  prove_transcript_order exLookup exDeps () exTranscript exProof
    exTranscriptFinal (by rfl)

theorem prove_deterministic_witness :
    ((LookUp.new exTable).readAll [((0:ℤ), (0:ℤ))]).prove exDeps () exTranscript
      = ((LookUp.new exTable).readAll [((0:ℤ), (0:ℤ))]).prove exDeps ()
          exTranscript :=
  prove_deterministic exDeps () exTable exTranscript exTranscript
    [((0:ℤ), (0:ℤ))] [((0:ℤ), (0:ℤ))] rfl rfl

/-- C6 (counterexample): after one in-domain read of `(0,0)` against
`exTable` and challenge `1`, padding repeats the merged witness's last
element, so the value `0` has multiplicity 3 in the merged witness but
only 1 in the merged table: `is_subset_of` (multiplicity semantics) is
false. -/
theorem is_subset_counterexample :
    (LookUp.readAll (LookUp.new exTable) [((0:ℤ), (0:ℤ))]).to_multiset 1
        = some ([0, 0, 0], [0, 3, 6, 6]) ∧
      (exTable.read ((0:ℤ), (0:ℤ))).isSome = true ∧
      MultiSet.is_subset_of ([0, 0, 0] : MultiSet ℤ) [0, 3, 6, 6] = false := by
  decide

theorem exTable_tableSpec : TableSpec exTable := by
  intro k v hv
  have hcases :
      (k = ((0:ℤ), (0:ℤ)) ∧ v = 0) ∨ (k = (1, 1) ∧ v = 1) ∨
        (k = (2, 2) ∧ v = 2) := by
    simp only [exTable] at hv
    split_ifs at hv with h1 h2 h3
    · exact Or.inl ⟨h1, (Option.some.inj hv).symm⟩
    · exact Or.inr (Or.inl ⟨h2, (Option.some.inj hv).symm⟩)
    · exact Or.inr (Or.inr ⟨h3, (Option.some.inj hv).symm⟩)
  rcases hcases with ⟨hk, hv'⟩ | ⟨hk, hv'⟩ | ⟨hk, hv'⟩ <;> subst hk <;>
    subst hv' <;> decide

/-- C6 (amended): for any **nonempty** sequence of reads with keys in the
table's domain and any challenge, whenever `to_multiset` returns without
panicking, every **element** of the merged witness also occurs in the
merged table (set-membership inclusion; the multiplicity form of the claim
is refuted by the padding, see the counterexample). -/
theorem merged_witness_mem_merged_table {F : Type} [CommRing F] [LinearOrder F]
    (tbl : LookUpTable F) (hspec : TableSpec tbl)
    (keys : List (F × F)) (hdom : ∀ k ∈ keys, (tbl.read k).isSome)
    (hne : keys ≠ []) (challenge : F) (f t : MultiSet F)
    (h : ((LookUp.new tbl).readAll keys).to_multiset challenge = some (f, t)) :
    ∀ x ∈ f, x ∈ t := by
  set s := (LookUp.new tbl).readAll keys with hs
  obtain ⟨htbl, hok⟩ := readAll_invariant hspec keys (LookUp.new tbl) rfl
    ⟨rfl, rfl, by intro p hp; simp [LookUp.new, List.zipWith3] at hp⟩
  rw [to_multiset_eq] at h
  rw [htbl] at h
  set w0 := rlcMerge challenge s.left_wires s.right_wires s.output_wires
    with hw0
  set t0 := MultiSet.sort
    (rlcMerge challenge tbl.rows.1 tbl.rows.2.1 tbl.rows.2.2) with ht0
  obtain ⟨hlen1, hlen2, hmem⟩ := hok
  have hsub : ∀ x ∈ w0, x ∈ t0 := by
    intro x hx
    rw [hw0, rlcMerge, zipWith3_eq_map] at hx
    obtain ⟨p, hp, hpx⟩ := List.mem_map.mp hx
    have hrow : p ∈ tripleRows tbl := hmem p hp
    rw [ht0, MultiSet.mem_sort, rlcMerge, zipWith3_eq_map]
    exact List.mem_map.mpr ⟨p, hrow, hpx⟩
  have hL : s.left_wires.length = keys.length := by
    have := readAll_left_length keys (LookUp.new tbl) rfl hdom
    simpa [LookUp.new] using this
  have hw0len : w0.length = keys.length := by
    rw [hw0, rlcMerge, zipWith3_length_of_eq _ _ _ _ hlen1 hlen2]
    exact hL
  have hw0ne : w0 ≠ [] := by
    intro hc
    apply hne
    rw [← List.length_eq_zero, ← hw0len, hc]
    rfl
  have ht0ne : t0 ≠ [] := by
    obtain ⟨x, hx⟩ := List.exists_mem_of_ne_nil w0 hw0ne
    exact List.ne_nil_of_mem (hsub x hx)
  rw [LookUp.pad_eq] at h
  by_cases hlt : w0.length < t0.length
  · rw [if_pos hlt] at h
    simp only [Option.some.injEq, Prod.mk.injEq] at h
    obtain ⟨hf, ht⟩ := h
    intro x hx
    rw [← hf] at hx
    rw [← ht]
    rcases List.mem_append.mp hx with hx | hx
    · exact List.mem_append.mpr (Or.inl (hsub x hx))
    · rw [List.eq_of_mem_replicate hx]
      exact List.mem_append.mpr (Or.inl (hsub _ (MultiSet.last_mem hw0ne)))
  · rw [if_neg hlt] at h
    by_cases h0 : next_power_of_two w0.length = w0.length
    · rw [if_pos h0] at h
      exact absurd h (by simp)
    · rw [if_neg h0] at h
      simp only [Option.some.injEq, Prod.mk.injEq] at h
      obtain ⟨hf, ht⟩ := h
      intro x hx
      rw [← hf] at hx
      rw [← ht]
      rcases List.mem_append.mp hx with hx | hx
      · exact List.mem_append.mpr (Or.inl (hsub x hx))
      · rw [List.eq_of_mem_replicate hx]
        exact List.mem_append.mpr (Or.inl (MultiSet.last_mem ht0ne))

theorem merged_witness_mem_merged_table_witness :
    (0:ℤ) ∈ ([0, 3, 6, 6] : MultiSet ℤ) :=
  merged_witness_mem_merged_table exTable exTable_tableSpec
    [((0:ℤ), (0:ℤ))] (by decide) (by decide) 1 [0, 0, 0] [0, 3, 6, 6]
    (by decide) 0 (by decide)

end Plookup
